import Mathlib

/-!
Shallow embedding of the worktree-management utilities of `ai_sbx`
(`src/ai_sbx/commands/worktree.py` and `src/ai_sbx/commands/worktree/utils.py`).

Strings are modelled as `List Char`; Python regular-expression substitutions,
`str.strip`, `str.rsplit`, `str.splitlines`, `str.replace` and `str.split` are
given explicit executable definitions below, each annotated with the Python
expression it embeds.
-/

abbrev Str := List Char

/-- The character class `[a-z0-9-]` of the regex in `generate_branch_name`. -/
def isBranchChar (c : Char) : Bool :=
  ('a' ≤ c && c ≤ 'z') || ('0' ≤ c && c ≤ '9') || c == '-'

/-- The character class `[a-z0-9]` (a branch character other than a hyphen). -/
def isAlnumLower (c : Char) : Bool :=
  ('a' ≤ c && c ≤ 'z') || ('0' ≤ c && c ≤ '9')

/-- Helper for `re.sub(cls+, r, s)`: replace each maximal run of characters
satisfying `p` by the single character `r`.  The `inRun` flag records whether
the previous character was part of a run (structural recursion). -/
def subRunsAux (p : Char → Bool) (r : Char) : Bool → Str → Str
  | _, [] => []
  | inRun, c :: cs =>
    if p c then
      if inRun then subRunsAux p r true cs else r :: subRunsAux p r true cs
    else c :: subRunsAux p r false cs

/-- Model of `re.sub(cls+, r, s)` where `cls` is the set of characters satisfying `p`:
each maximal run of such characters becomes the single character `r`. -/
def subRuns (p : Char → Bool) (r : Char) (s : Str) : Str :=
  subRunsAux p r false s

/-- Python `s.strip(chars)`: remove leading and trailing characters
satisfying `p` (also used for `s.strip()` with `p := Char.isWhitespace`). -/
def stripChars (p : Char → Bool) (s : Str) : Str :=
  ((s.dropWhile p).reverse.dropWhile p).reverse

/-- Python `s.rsplit(sep, 1)[0]`: everything before the last occurrence of
`sep`, or the whole string when `sep` does not occur. -/
def rsplitHead (sep : Char) (s : Str) : Str :=
  if sep ∈ s then ((s.reverse.dropWhile (fun c => !(c == sep))).drop 1).reverse
  else s

/-- The cleaning pipeline of `generate_branch_name` before the length cap:
`description.lower()`, then `re.sub(r"[^a-z0-9-]+", "-", .)`, then
`re.sub(r"-+", "-", .)`, then `.strip("-")`. -/
def cleanedSlug (description : Str) : Str :=
  stripChars (fun c => c == '-')
    (subRuns (fun c => c == '-') '-'
      (subRuns (fun c => !(isBranchChar c)) '-'
        (description.map Char.toLower)))

/-- Model of `generate_branch_name` from `commands/worktree/utils.py`:
clean the description into a slug, and if it exceeds 50 characters take
`branch[:50].rsplit("-", 1)[0]`. -/
def generate_branch_name (description : Str) : Str :=
  let branch := cleanedSlug description
  if branch.length > 50 then rsplitHead '-' (branch.take 50) else branch

/-- Model of `_generate_branch_name` from `commands/worktree.py`, a textually identical
duplicate of `generate_branch_name` (same lowering, the same two regex
substitutions, the same strip and the same 50-character cap). -/
def _generate_branch_name (description : Str) : Str :=
  let branch := description.map Char.toLower
  let branch := subRuns (fun c => !(isBranchChar c)) '-' branch
  let branch := subRuns (fun c => c == '-') '-' branch
  let branch := stripChars (fun c => c == '-') branch
  if branch.length > 50 then rsplitHead '-' (branch.take 50) else branch

/-- Decidable matcher for the regular expression `^[a-z0-9]+(-[a-z0-9]+)*$`:
nonempty, every character in `[a-z0-9-]`, no leading or trailing hyphen, and
no two adjacent hyphens. -/
def matchesBranchRegex (s : Str) : Prop :=
  s ≠ [] ∧ (∀ c ∈ s, isBranchChar c = true) ∧
    s.head? ≠ some '-' ∧ s.getLast? ≠ some '-' ∧
    s.Chain' (fun a b => ¬(a = '-' ∧ b = '-'))

instance (s : Str) : Decidable (matchesBranchRegex s) := by
  unfold matchesBranchRegex; infer_instance

/-! ### Lemmas about the string-processing primitives -/

lemma subRunsAux_cons_pos {p : Char → Bool} {r c : Char} {b : Bool} {cs : Str}
    (hpc : p c = true) :
    subRunsAux p r b (c :: cs) =
      (if b then [] else [r]) ++ subRunsAux p r true cs := by
  cases b <;> · rw [subRunsAux]; simp [hpc]

lemma subRunsAux_cons_neg {p : Char → Bool} {r c : Char} {b : Bool} {cs : Str}
    (hpc : p c = false) :
    subRunsAux p r b (c :: cs) = c :: subRunsAux p r false cs := by
  rw [subRunsAux]; simp [hpc]

lemma subRunsAux_mem {p : Char → Bool} {r : Char} {b : Bool} {s : Str} {x : Char}
    (hx : x ∈ subRunsAux p r b s) : x = r ∨ (x ∈ s ∧ p x = false) := by
  induction s generalizing b with
  | nil => simp [subRunsAux] at hx
  | cons c cs ih =>
    rcases hpc : p c with _ | _
    · rw [subRunsAux_cons_neg hpc] at hx
      rcases List.mem_cons.1 hx with h | h
      · subst h; exact Or.inr ⟨List.mem_cons_self _ _, hpc⟩
      · rcases ih h with h' | ⟨h1, h2⟩
        · exact Or.inl h'
        · exact Or.inr ⟨List.mem_cons_of_mem _ h1, h2⟩
    · rw [subRunsAux_cons_pos hpc] at hx
      have hx' : x = r ∨ x ∈ subRunsAux p r true cs := by
        cases b with
        | true => exact Or.inr (by simpa using hx)
        | false =>
          rcases List.mem_cons.1 (by simpa using hx) with h | h
          · exact Or.inl h
          · exact Or.inr h
      rcases hx' with h | h
      · exact Or.inl h
      · rcases ih h with h' | ⟨h1, h2⟩
        · exact Or.inl h'
        · exact Or.inr ⟨List.mem_cons_of_mem _ h1, h2⟩

lemma subRunsAux_true_head {p : Char → Bool} {r : Char} {s : Str} {x : Char}
    (hx : (subRunsAux p r true s).head? = some x) : p x = false := by
  induction s with
  | nil => simp [subRunsAux] at hx
  | cons c cs ih =>
    rcases hpc : p c with _ | _
    · rw [subRunsAux_cons_neg hpc] at hx
      simp only [List.head?_cons, Option.some.injEq] at hx
      exact hx ▸ hpc
    · rw [subRunsAux_cons_pos hpc] at hx
      exact ih (by simpa using hx)

lemma subRunsAux_chain' (p : Char → Bool) (r : Char) (b : Bool) (s : Str) :
    (subRunsAux p r b s).Chain' (fun a c => ¬(p a = true ∧ p c = true)) := by
  induction s generalizing b with
  | nil => simp [subRunsAux]
  | cons c cs ih =>
    rcases hpc : p c with _ | _
    · rw [subRunsAux_cons_neg hpc, List.chain'_cons']
      refine ⟨fun y hy h => ?_, ih false⟩
      exact absurd h.1 (by simp [hpc])
    · rw [subRunsAux_cons_pos hpc]
      cases b with
      | true => simpa using ih true
      | false =>
        have hcons : (if (false : Bool) then ([] : Str) else [r]) ++ subRunsAux p r true cs =
            r :: subRunsAux p r true cs := rfl
        rw [hcons, List.chain'_cons']
        refine ⟨fun y hy h => ?_, ih true⟩
        have hy' : (subRunsAux p r true cs).head? = some y := Option.mem_def.mp hy
        exact absurd h.2 (by simp [subRunsAux_true_head hy'])

lemma dropWhile_head?_false {p : Char → Bool} :
    ∀ {s : Str} {x : Char}, (s.dropWhile p).head? = some x → p x = false := by
  intro s
  induction s with
  | nil => intro x h; simp [List.dropWhile] at h
  | cons c cs ih =>
    intro x h
    rcases hpc : p c with _ | _
    · rw [List.dropWhile_cons, if_neg (by simp [hpc])] at h
      simp only [List.head?_cons, Option.some.injEq] at h
      exact h ▸ hpc
    · rw [List.dropWhile_cons, if_pos (by simp [hpc])] at h
      exact ih h

lemma stripChars_getLast? {p : Char → Bool} {s : Str} {x : Char}
    (h : (stripChars p s).getLast? = some x) : p x = false := by
  unfold stripChars at h
  rw [List.getLast?_reverse] at h
  exact dropWhile_head?_false h

lemma stripChars_head? {p : Char → Bool} {s : Str} {x : Char}
    (h : (stripChars p s).head? = some x) : p x = false := by
  unfold stripChars at h
  rw [List.head?_reverse] at h
  set m := s.dropWhile p with hm
  rcases hne : m.reverse.dropWhile p with _ | ⟨z, zs⟩
  · rw [hne] at h; simp at h
  · have hsplit : m.reverse.takeWhile p ++ (z :: zs) = m.reverse := by
      rw [← hne]; exact List.takeWhile_append_dropWhile p m.reverse
    have h1 : m.reverse.getLast? = (z :: zs).getLast? := by
      conv_lhs => rw [← hsplit]
      rw [List.getLast?_append]
      have hz : (z :: zs).getLast?.isSome = true := by
        rw [List.getLast?_isSome]; simp
      rcases Option.isSome_iff_exists.1 hz with ⟨w, hw⟩
      rw [hw]; rfl
    rw [hne, ← h1, List.getLast?_reverse] at h
    exact dropWhile_head?_false (s := s) (hm ▸ h)

lemma stripChars_isInfix (p : Char → Bool) (s : Str) : stripChars p s <:+: s := by
  unfold stripChars
  have h1 : s.dropWhile p <:+ s := List.dropWhile_suffix p
  have h2 : (s.dropWhile p).reverse.dropWhile p <:+ (s.dropWhile p).reverse :=
    List.dropWhile_suffix p
  obtain ⟨t, ht⟩ := h2
  have h3 : ((s.dropWhile p).reverse.dropWhile p).reverse <+: s.dropWhile p := by
    refine ⟨t.reverse, ?_⟩
    have := congrArg List.reverse ht
    simpa [List.reverse_append] using this
  exact h3.isInfix.trans h1.isInfix

lemma rsplitHead_eq_of_not_mem {sep : Char} {s : Str} (h : sep ∉ s) :
    rsplitHead sep s = s := by
  unfold rsplitHead
  rw [if_neg h]

lemma rsplitHead_append {sep : Char} {s : Str} (h : sep ∈ s) :
    ∃ post, s = rsplitHead sep s ++ sep :: post ∧ sep ∉ post := by
  unfold rsplitHead
  rw [if_pos h]
  set q : Char → Bool := fun c => !(c == sep) with hq
  have hmem : sep ∈ s.reverse := List.mem_reverse.2 h
  have hne : s.reverse.dropWhile q ≠ [] := by
    intro hnil
    have := (List.dropWhile_eq_nil_iff).1 hnil sep hmem
    simp [hq] at this
  rcases hd : s.reverse.dropWhile q with _ | ⟨z, zs⟩
  · exact absurd hd hne
  · have hz : z = sep := by
      have := dropWhile_head?_false (p := q) (s := s.reverse) (x := z) (by rw [hd]; rfl)
      simpa [hq] using this
    have hd' : s.reverse.dropWhile q = sep :: zs := by rw [hd, hz]
    have hsplit : s.reverse.takeWhile q ++ sep :: zs = s.reverse := by
      rw [← hd']; exact List.takeWhile_append_dropWhile q s.reverse
    refine ⟨(s.reverse.takeWhile q).reverse, ?_, ?_⟩
    · have h5 := congrArg List.reverse hsplit
      rw [List.reverse_reverse] at h5
      conv_lhs => rw [← h5]
      rw [hz]
      simp
    · intro hc
      have hc' : sep ∈ s.reverse.takeWhile q := List.mem_reverse.1 hc
      have := List.mem_takeWhile_imp hc'
      simp [hq] at this

/-! ### Structural facts about the cleaned slug -/

lemma cleanedSlug_chars (s : Str) : ∀ c ∈ cleanedSlug s, isBranchChar c = true := by
  intro c hc
  have hc2 := (stripChars_isInfix _ _).subset hc
  rcases subRunsAux_mem hc2 with h | ⟨h1, _⟩
  · subst h; decide
  · rcases subRunsAux_mem h1 with h' | ⟨_, h2⟩
    · subst h'; decide
    · simpa using h2

lemma cleanedSlug_head (s : Str) : (cleanedSlug s).head? ≠ some '-' := by
  intro h
  have := stripChars_head? (s := subRuns (fun c => c == '-') '-'
    (subRuns (fun c => !(isBranchChar c)) '-' (s.map Char.toLower))) h
  simp at this

lemma cleanedSlug_last (s : Str) : (cleanedSlug s).getLast? ≠ some '-' := by
  intro h
  have := stripChars_getLast? (s := subRuns (fun c => c == '-') '-'
    (subRuns (fun c => !(isBranchChar c)) '-' (s.map Char.toLower))) h
  simp at this

lemma cleanedSlug_chain (s : Str) :
    (cleanedSlug s).Chain' (fun a b => ¬(a = '-' ∧ b = '-')) := by
  have h1 := subRunsAux_chain' (fun c => c == '-') '-' false
    (subRuns (fun c => !(isBranchChar c)) '-' (s.map Char.toLower))
  have h2 : (cleanedSlug s).Chain'
      (fun a c => ¬((a == '-') = true ∧ (c == '-') = true)) :=
    h1.infix (stripChars_isInfix _ _)
  exact h2.imp (fun a c h hac => h (by simp [hac.1, hac.2]))

lemma head?_take_pos {l : Str} {n : Nat} (hn : 0 < n) : (l.take n).head? = l.head? := by
  cases l with
  | nil => simp
  | cons c cs =>
    cases n with
    | zero => exact absurd hn (by simp)
    | succ m => simp

lemma rsplitHead_hyphen_props {t : Str}
    (hchain : t.Chain' (fun a b => ¬(a = '-' ∧ b = '-'))) (hmem : '-' ∈ t) :
    (∃ post, t = rsplitHead '-' t ++ '-' :: post) ∧
      (rsplitHead '-' t).getLast? ≠ some '-' := by
  obtain ⟨post, ht, _⟩ := rsplitHead_append hmem
  refine ⟨⟨post, ht⟩, ?_⟩
  intro hl
  rw [ht] at hchain
  have h3 := (List.chain'_append.1 hchain).2.2
  exact h3 '-' hl '-' (by simp) ⟨rfl, rfl⟩

/-- Claim C3: for every input string, the output of the branch-name deriver either is
empty or matches `^[a-z0-9]+(-[a-z0-9]+)*$`, its length never exceeds 50, and
it never ends with a hyphen. -/
theorem generate_branch_name_wellformed (s : Str) :
    (generate_branch_name s = [] ∨ matchesBranchRegex (generate_branch_name s)) ∧
    (generate_branch_name s).length ≤ 50 ∧
    (generate_branch_name s).getLast? ≠ some '-' := by
  have hchars := cleanedSlug_chars s
  have hhead := cleanedSlug_head s
  have hlast := cleanedSlug_last s
  have hchain := cleanedSlug_chain s
  simp only [generate_branch_name]
  by_cases hlen : (cleanedSlug s).length > 50
  · rw [if_pos hlen]
    have hbne : cleanedSlug s ≠ [] := by
      intro h; rw [h] at hlen; simp at hlen
    have hhead_t : ((cleanedSlug s).take 50).head? = (cleanedSlug s).head? :=
      head?_take_pos (by omega)
    have htp := List.take_prefix 50 (cleanedSlug s)
    have hchain_t : ((cleanedSlug s).take 50).Chain' (fun a b => ¬(a = '-' ∧ b = '-')) :=
      hchain.prefix htp
    have hchars_t : ∀ c ∈ (cleanedSlug s).take 50, isBranchChar c = true :=
      fun c hc => hchars c (htp.subset hc)
    have hlen_t : ((cleanedSlug s).take 50).length = 50 := by
      rw [List.length_take]; omega
    by_cases hmem : '-' ∈ (cleanedSlug s).take 50
    · obtain ⟨⟨post, ht⟩, hrlast⟩ := rsplitHead_hyphen_props hchain_t hmem
      have hpre : rsplitHead '-' ((cleanedSlug s).take 50) <+: (cleanedSlug s).take 50 :=
        ⟨'-' :: post, ht.symm⟩
      refine ⟨?_, ?_, hrlast⟩
      · by_cases hre : rsplitHead '-' ((cleanedSlug s).take 50) = []
        · exact Or.inl hre
        · refine Or.inr ⟨hre, fun c hc => hchars_t c (hpre.subset hc), ?_, hrlast,
            hchain_t.prefix hpre⟩
          have hho : ((cleanedSlug s).take 50).head? =
              (rsplitHead '-' ((cleanedSlug s).take 50)).head? := by
            conv_lhs => rw [ht]
            rw [List.head?_append]
            rcases hhh : (rsplitHead '-' ((cleanedSlug s).take 50)).head? with _ | w
            · exact absurd (List.head?_eq_none_iff.1 hhh) hre
            · rfl
          rw [← hho, hhead_t]
          exact hhead
      · calc (rsplitHead '-' ((cleanedSlug s).take 50)).length
            ≤ ((cleanedSlug s).take 50).length := hpre.length_le
          _ ≤ 50 := by omega
    · rw [rsplitHead_eq_of_not_mem hmem]
      refine ⟨Or.inr ⟨?_, hchars_t, ?_, ?_, hchain_t⟩, by omega, ?_⟩
      · intro h; rw [h] at hlen_t; simp at hlen_t
      · rw [hhead_t]; exact hhead
      · intro h
        exact hmem (List.mem_of_getLast?_eq_some h)
      · intro h
        exact hmem (List.mem_of_getLast?_eq_some h)
  · rw [if_neg hlen]
    refine ⟨?_, by omega, hlast⟩
    by_cases hbe : cleanedSlug s = []
    · exact Or.inl hbe
    · exact Or.inr ⟨hbe, hchars, hhead, hlast, hchain⟩

/-- Claim C2 counterexample: for a single 51-character word the cleaned slug exceeds
50 characters, yet the result is the bare 50-character cut `branch[:50]`
(there is no hyphen to back up to), so the result is not a hyphen-delimited
prefix of the slug: the word is split. -/
theorem generate_branch_name_splits_word_counterexample :
    50 < (cleanedSlug (List.replicate 51 'a')).length ∧
    ¬ ∃ rest, cleanedSlug (List.replicate 51 'a') =
        generate_branch_name (List.replicate 51 'a') ++ '-' :: rest := by
  refine ⟨by decide, ?_⟩
  rintro ⟨rest, h⟩
  have h1 : cleanedSlug (List.replicate 51 'a') = List.replicate 51 'a' := by decide
  have h2 : generate_branch_name (List.replicate 51 'a') = List.replicate 50 'a' := by
    decide
  rw [h1, h2] at h
  have hlhs : (List.replicate 51 'a' : Str)[50]? = some 'a' := by decide
  have hrhs : (List.replicate 50 'a' ++ '-' :: rest : Str)[50]? = some '-' := by
    rw [List.getElem?_append_right (by simp)]
    simp
  rw [h, hrhs] at hlhs
  exact absurd hlhs (by decide)

/-- Claim C2 (amended): for every description whose cleaned slug exceeds 50
characters, the result is the 50-character truncation backed up to the last
hyphen inside it whenever that truncation contains a hyphen — a
hyphen-delimited prefix of the slug that does not split a word; when the
truncation contains no hyphen the result is the bare 50-character prefix
(which may split a word).  In both cases the result never ends with a
hyphen. -/
theorem generate_branch_name_truncation (s : Str)
    (h : 50 < (cleanedSlug s).length) :
    (('-' ∈ (cleanedSlug s).take 50 →
        ∃ rest, cleanedSlug s = generate_branch_name s ++ '-' :: rest) ∧
      ('-' ∉ (cleanedSlug s).take 50 →
        generate_branch_name s = (cleanedSlug s).take 50)) ∧
    (generate_branch_name s).getLast? ≠ some '-' := by
  have hchain := cleanedSlug_chain s
  have htp := List.take_prefix 50 (cleanedSlug s)
  have hchain_t : ((cleanedSlug s).take 50).Chain' (fun a b => ¬(a = '-' ∧ b = '-')) :=
    hchain.prefix htp
  have hgen : generate_branch_name s = rsplitHead '-' ((cleanedSlug s).take 50) := by
    simp only [generate_branch_name]
    rw [if_pos h]
  refine ⟨⟨?_, ?_⟩, ?_⟩
  · intro hmem
    obtain ⟨post, ht, _⟩ := rsplitHead_append hmem
    refine ⟨post ++ (cleanedSlug s).drop 50, ?_⟩
    rw [hgen]
    conv_lhs =>
      rw [← List.take_append_drop 50 (cleanedSlug s)]
      rw [ht]
    simp
  · intro hmem
    rw [hgen, rsplitHead_eq_of_not_mem hmem]
  · rw [hgen]
    by_cases hmem : '-' ∈ (cleanedSlug s).take 50
    · exact (rsplitHead_hyphen_props hchain_t hmem).2
    · rw [rsplitHead_eq_of_not_mem hmem]
      intro hg
      exact hmem (List.mem_of_getLast?_eq_some hg)

/-- Witness for the amended C2 theorem at a concrete description of 61
characters containing a hyphen. -/
theorem generate_branch_name_truncation_witness :
    50 < (cleanedSlug (List.replicate 30 'a' ++ '-' :: List.replicate 30 'b')).length ∧
    ((('-' ∈ (cleanedSlug (List.replicate 30 'a' ++ '-' :: List.replicate 30 'b')).take 50 →
        ∃ rest, cleanedSlug (List.replicate 30 'a' ++ '-' :: List.replicate 30 'b') =
          generate_branch_name (List.replicate 30 'a' ++ '-' :: List.replicate 30 'b') ++
            '-' :: rest) ∧
      ('-' ∉ (cleanedSlug (List.replicate 30 'a' ++ '-' :: List.replicate 30 'b')).take 50 →
        generate_branch_name (List.replicate 30 'a' ++ '-' :: List.replicate 30 'b') =
          (cleanedSlug (List.replicate 30 'a' ++ '-' :: List.replicate 30 'b')).take 50)) ∧
    (generate_branch_name (List.replicate 30 'a' ++ '-' :: List.replicate 30 'b')).getLast? ≠
      some '-') :=
  ⟨by decide, generate_branch_name_truncation _ (by decide)⟩

/-- Claim C10: the duplicated branch-name derivers `_generate_branch_name`
(`commands/worktree.py`) and `generate_branch_name`
(`commands/worktree/utils.py`) are extensionally equal. -/
theorem generate_branch_name_duplicates_agree (s : Str) :
    _generate_branch_name s = generate_branch_name s := rfl

/-! ### Container name resolver -/

/-- Model of `get_running_container_name` from `commands/worktree/utils.py` and its
textually identical duplicate `_get_running_container_name` from
`commands/worktree.py`: scan the running-container names (the stdout lines of
a successful `docker ps` name listing) in order and return the first name
equal to `container_name` or to `container_name` with `-1` appended.  The
no-match fall-through and the failed-query branch both return `none`. -/
def get_running_container_name (container_name : Str) (running : List Str) :
    Option Str :=
  running.find? (fun name =>
    name == container_name || name == container_name ++ "-1".toList)

/-- Claim C1 counterexample: with both the exact name and the suffixed name running,
listed suffixed-first, the resolver returns the suffixed name rather than the
exact one — the loop returns the first match in listing order, so the claimed
order-independent exact-match preference fails. -/
theorem get_running_container_name_counterexample :
    "proj-devcontainer".toList ∈
        (["proj-devcontainer-1".toList, "proj-devcontainer".toList] : List Str) ∧
    ("proj-devcontainer".toList ++ "-1".toList) ∈
        (["proj-devcontainer-1".toList, "proj-devcontainer".toList] : List Str) ∧
    get_running_container_name "proj-devcontainer".toList
        ["proj-devcontainer-1".toList, "proj-devcontainer".toList] =
      some ("proj-devcontainer-1".toList) ∧
    "proj-devcontainer-1".toList ≠ "proj-devcontainer".toList := by decide

/-- Claim C1 (amended): the resolver returns the first name in docker listing order
that equals the base name or the base name with `-1` appended; in particular,
when only the suffixed name is present it returns the suffixed name, and the
exact name is preferred exactly when it is listed no later than the suffixed
one. -/
theorem get_running_container_name_first_match (base n : Str) (pre post : List Str)
    (hpre : ∀ m ∈ pre, m ≠ base ∧ m ≠ base ++ "-1".toList)
    (hn : n = base ∨ n = base ++ "-1".toList) :
    get_running_container_name base (pre ++ n :: post) = some n := by
  unfold get_running_container_name
  rw [List.find?_append]
  have hpre' : pre.find? (fun name =>
      name == base || name == base ++ "-1".toList) = none := by
    rw [List.find?_eq_none]
    intro x hx
    rcases hpre x hx with ⟨h1, h2⟩
    have h2' : x ≠ base ++ ['-', '1'] := h2
    simp [h1, h2']
  have hn' : (n == base || n == base ++ "-1".toList) = true := by
    rcases hn with h | h <;> simp [h]
  rw [hpre', Option.none_or]
  exact List.find?_cons_of_pos post hn'

/-- Witness for the amended C1 theorem: with no earlier candidates and only
the suffixed name listed, the resolver returns the suffixed name. -/
theorem get_running_container_name_first_match_witness :
    get_running_container_name "proj-devcontainer".toList
        ([] ++ ("proj-devcontainer".toList ++ "-1".toList) :: []) =
      some ("proj-devcontainer".toList ++ "-1".toList) :=
  get_running_container_name_first_match _ _ [] [] (by simp) (Or.inr rfl)

/-! ### Worktree registry reader -/

/-- The record dictionary built per block by `list_worktrees` /
`_list_worktrees`.  A `none` / `false` field models the corresponding Python
dict key being absent. -/
structure WorktreeDict where
  path : Option Str := none
  commit : Option Str := none
  branch : Option Str := none
  detached : Bool := false
deriving DecidableEq

/-- Python `if current:` — a dict is truthy iff it has at least one key. -/
def WorktreeDict.isEmptyDict (w : WorktreeDict) : Bool :=
  w.path == none && w.commit == none && w.branch == none && !w.detached

/-- Helper for Python `s.replace(pat, repl)` with leftmost non-overlapping
matches; `skip` counts characters of a match still to be consumed. -/
def replaceAllAux (pat repl : Str) : Nat → Str → Str
  | _, [] => []
  | n + 1, _ :: cs => replaceAllAux pat repl n cs
  | 0, c :: cs =>
    if !pat.isEmpty && pat.isPrefixOf (c :: cs) then
      repl ++ replaceAllAux pat repl (pat.length - 1) cs
    else c :: replaceAllAux pat repl 0 cs

/-- Python `s.replace(pat, repl)` for a non-empty pattern: replace every
leftmost non-overlapping occurrence of `pat` by `repl`. -/
def replaceAll (pat repl s : Str) : Str := replaceAllAux pat repl 0 s

/-- The parsing loop of `list_worktrees`: one pass over the stdout lines of
the porcelain worktree listing, with the accumulated records `acc` and the
mutable `current` dict.  The final `if current: worktrees.append(current)` of
the source is folded into the end-of-input case. -/
def worktreeLoop (acc : List WorktreeDict) (current : WorktreeDict) :
    List Str → List WorktreeDict
  | [] => if current.isEmptyDict then acc else acc ++ [current]
  | line :: rest =>
    if ("worktree ".toList).isPrefixOf line then
      worktreeLoop
        (if current.isEmptyDict then acc else acc ++ [current])
        { path := some (line.drop 9) } rest
    else if ("HEAD ".toList).isPrefixOf line then
      worktreeLoop acc { current with commit := some (line.drop 5) } rest
    else if ("branch ".toList).isPrefixOf line then
      worktreeLoop acc
        { current with
          branch := some (replaceAll "refs/heads/".toList [] (line.drop 7)) } rest
    else if ("detached".toList).isPrefixOf line then
      worktreeLoop acc { current with detached := true } rest
    else
      worktreeLoop acc current rest

/-- Model of `list_worktrees` from `commands/worktree/utils.py` and its textually
identical duplicate `_list_worktrees` from `commands/worktree.py`.
`run_ok = false` models `git worktree list --porcelain` exiting non-zero
(`subprocess.CalledProcessError`, caught and turned into `[]`);
`stdout_lines` are the lines of its stdout on success, and `main_path` is the
result of the main-worktree query (paths modelled as strings; the `Path`
equality of the source is modelled as string equality on resolved paths). -/
def list_worktrees (exclude_current : Bool) (run_ok : Bool)
    (stdout_lines : List Str) (main_path : Option Str) : List WorktreeDict :=
  if run_ok = false then []
  else
    let worktrees := worktreeLoop [] {} stdout_lines
    match exclude_current, main_path with
    | true, some p => worktrees.filter (fun w => !(w.path == some p))
    | _, _ => worktrees

/-- Claim C5: with the exclude-main flag set, no returned record carries the main
worktree's resolved path. -/
theorem list_worktrees_excludes_main (run_ok : Bool) (lines : List Str) (p : Str)
    (w : WorktreeDict) (hw : w ∈ list_worktrees true run_ok lines (some p)) :
    w.path ≠ some p := by
  unfold list_worktrees at hw
  cases run_ok with
  | false => simp at hw
  | true =>
    rw [if_neg (by simp)] at hw
    have := (List.mem_filter.1 hw).2
    simpa using this

/-- Witness for C5: parsing one `worktree /a` line with main path `/b`
returns the `/a` record, whose path differs from `/b`. -/
theorem list_worktrees_excludes_main_witness :
    ({ path := some "/a".toList } : WorktreeDict).path ≠ some "/b".toList :=
  list_worktrees_excludes_main true ["worktree /a".toList] "/b".toList
    { path := some "/a".toList } (by decide)

/-- Claim C8: parsing a block `worktree /a` + `branch refs/heads/main` and a block
`worktree /b` + `detached` (main-worktree exclusion removes neither: the
main-path query returned nothing) yields exactly two records — the first with
path `/a` and branch `main`, the second with path `/b`, detached, and with no
branch. -/
theorem list_worktrees_parse_scenario :
    list_worktrees true true
        ["worktree /a".toList, "branch refs/heads/main".toList,
          "worktree /b".toList, "detached".toList] none =
      [{ path := some "/a".toList, branch := some "main".toList },
        { path := some "/b".toList, detached := true }] := by decide

/-- Claim C9: when the porcelain listing invocation fails (non-zero exit), the
reader returns the empty sequence instead of propagating the error. -/
theorem list_worktrees_fail_empty (exclude_current : Bool) (lines : List Str)
    (main_path : Option Str) :
    list_worktrees exclude_current false lines main_path = [] := rfl

/-! ### IDE preference store -/

/-- The `IDE` enum from `ai_sbx/config.py`. -/
inductive IDE
  | vscode
  | pycharm
  | rider
  | goland
  | devcontainer
  | claude
deriving DecidableEq

/-- The string value of each `IDE` enum member. -/
def IDE.value : IDE → Str
  | .vscode => "vscode".toList
  | .pycharm => "pycharm".toList
  | .rider => "rider".toList
  | .goland => "goland".toList
  | .devcontainer => "devcontainer".toList
  | .claude => "claude".toList

/-- The `IDE(value)` enum constructor: `some` iff the string is one of the
member values (`ValueError` is modelled as `none`). -/
def IDE.fromValue (s : Str) : Option IDE :=
  if s = "vscode".toList then some .vscode
  else if s = "pycharm".toList then some .pycharm
  else if s = "rider".toList then some .rider
  else if s = "goland".toList then some .goland
  else if s = "devcontainer".toList then some .devcontainer
  else if s = "claude".toList then some .claude
  else none

/-- Helper for Python `str.splitlines`: split at every newline, producing one
piece more than there are newlines. -/
def splitOnNl : Str → List Str
  | [] => [[]]
  | c :: cs =>
    if c = '\n' then [] :: splitOnNl cs
    else (c :: (splitOnNl cs).headD []) :: (splitOnNl cs).tail

/-- Python `str.splitlines` (modelled for newline-terminated lines): a
trailing newline does not produce a final empty line, and the empty string
has no lines at all. -/
def splitlines (s : Str) : List Str :=
  if (splitOnNl s).getLast? = some [] then (splitOnNl s).dropLast else splitOnNl s

/-- Model of the Python newline join of a list of lines. -/
def joinNl : List Str → Str
  | [] => []
  | [l] => l
  | l :: ls => l ++ '\n' :: joinNl ls

/-- The `"PREFERRED_IDE="` line prefix. -/
def prefKey : Str := "PREFERRED_IDE=".toList

/-- Model of `save_preferred_ide` from `commands/worktree/utils.py` and its textually
identical duplicate `_save_preferred_ide` from `commands/worktree.py`,
modelled on the file content: `existing` is the prior content of
`.devcontainer/.user.env` (`none` when the file does not exist); the result
is the rewritten-in-full content — the existing lines with every
`PREFERRED_IDE=` line dropped, then the new assignment, joined with newlines
and given a trailing newline. -/
def save_preferred_ide (existing : Option Str) (ide : IDE) : Str :=
  joinNl ((match existing with
    | none => []
    | some content =>
        (splitlines content).filter (fun l => !(prefKey.isPrefixOf l))) ++
    [prefKey ++ ide.value]) ++ ['\n']

/-- Python `line.split(eq-sign, 1)[1]` for a line known to contain an equals
sign: everything after the first one. -/
def splitAfterFirstEq (line : Str) : Str :=
  (line.dropWhile (fun c => !(c == '='))).drop 1

/-- The single-quote character (code point 39), the argument of the final
`.strip` of the value extraction. -/
def squoteChar : Char := Char.ofNat 39

/-- The value extraction of `_get_preferred_ide`:
`line.split(eq, 1)[1].strip().strip(dquote).strip(squote)`. -/
def parseIdeValue (line : Str) : Str :=
  stripChars (fun c => c == squoteChar)
    (stripChars (fun c => c == '"')
      (stripChars Char.isWhitespace (splitAfterFirstEq line)))

/-- The line scan of `_get_preferred_ide`: return the IDE of the first
`PREFERRED_IDE=` line whose stripped value parses; an unparseable value is
skipped silently (`except ValueError: pass`). -/
def scanPreferredIde : List Str → Option IDE
  | [] => none
  | line :: rest =>
    if prefKey.isPrefixOf line then
      match IDE.fromValue (parseIdeValue line) with
      | some ide => some ide
      | none => scanPreferredIde rest
    else scanPreferredIde rest

/-- Model of `_get_preferred_ide` from `commands/worktree.py` (and the identical
`get_preferred_ide` of utils): `none` when the file does not exist or no
line parses. -/
def get_preferred_ide (existing : Option Str) : Option IDE :=
  match existing with
  | none => none
  | some content => scanPreferredIde (splitlines content)

lemma splitOnNl_ne_nil (s : Str) : splitOnNl s ≠ [] := by
  cases s with
  | nil => simp [splitOnNl]
  | cons c cs =>
    rw [splitOnNl]
    by_cases hc : c = '\n' <;> simp [hc]

lemma splitOnNl_no_nl : ∀ {s piece : Str}, piece ∈ splitOnNl s → '\n' ∉ piece := by
  intro s
  induction s with
  | nil =>
    intro piece hp
    simp [splitOnNl] at hp
    simp [hp]
  | cons c cs ih =>
    intro piece hp
    rw [splitOnNl] at hp
    by_cases hc : c = '\n'
    · rw [if_pos hc] at hp
      rcases List.mem_cons.1 hp with h | h
      · simp [h]
      · exact ih h
    · rw [if_neg hc] at hp
      rcases List.mem_cons.1 hp with h | h
      · subst h
        intro hmem
        rcases List.mem_cons.1 hmem with h' | h'
        · exact hc h'.symm
        · rcases hps : splitOnNl cs with _ | ⟨q, qs⟩
          · exact absurd hps (splitOnNl_ne_nil cs)
          · rw [hps] at h'
            exact ih (by rw [hps]; exact List.mem_cons_self q qs) (by simpa using h')
      · rcases hps : splitOnNl cs with _ | ⟨q, qs⟩
        · exact absurd hps (splitOnNl_ne_nil cs)
        · rw [hps] at h
          exact ih (by rw [hps]; exact List.mem_cons_of_mem q (by simpa using h))

lemma splitlines_no_nl {s piece : Str} (hp : piece ∈ splitlines s) : '\n' ∉ piece := by
  unfold splitlines at hp
  by_cases hl : (splitOnNl s).getLast? = some []
  · rw [if_pos hl] at hp
    exact splitOnNl_no_nl ((List.dropLast_sublist _).subset hp)
  · rw [if_neg hl] at hp
    exact splitOnNl_no_nl hp

lemma splitOnNl_append_no_nl {l : Str} (hl : '\n' ∉ l) (s : Str) :
    splitOnNl (l ++ s) =
      (l ++ (splitOnNl s).headD []) :: (splitOnNl s).tail := by
  induction l with
  | nil =>
    rcases hps : splitOnNl s with _ | ⟨q, qs⟩
    · exact absurd hps (splitOnNl_ne_nil s)
    · simp [hps]
  | cons c l' ih =>
    have hc : ¬(c = '\n') := fun h => hl (h ▸ List.mem_cons_self c l')
    have hl' : '\n' ∉ l' := fun h => hl (List.mem_cons_of_mem c h)
    rw [List.cons_append, splitOnNl, if_neg hc, ih hl']
    simp

lemma splitOnNl_joinNl : ∀ {lines : List Str}, lines ≠ [] →
    (∀ l ∈ lines, '\n' ∉ l) →
    splitOnNl (joinNl lines ++ ['\n']) = lines ++ [[]] := by
  intro lines
  induction lines with
  | nil => intro h; exact absurd rfl h
  | cons l ls ih =>
    intro _ hnl
    cases ls with
    | nil =>
      rw [joinNl, splitOnNl_append_no_nl (hnl l (List.mem_cons_self l []))]
      simp [splitOnNl]
    | cons l₂ ls' =>
      have hjoin : joinNl (l :: l₂ :: ls') = l ++ '\n' :: joinNl (l₂ :: ls') := rfl
      rw [hjoin, List.append_assoc, List.cons_append]
      rw [splitOnNl_append_no_nl (hnl l (List.mem_cons_self l (l₂ :: ls')))]
      have hrec := ih (by simp) (fun x hx => hnl x (List.mem_cons_of_mem l hx))
      have hstep : splitOnNl ('\n' :: (joinNl (l₂ :: ls') ++ ['\n'])) =
          [] :: splitOnNl (joinNl (l₂ :: ls') ++ ['\n']) := by
        rw [splitOnNl, if_pos rfl]
      rw [hstep, hrec]
      simp

lemma splitlines_append_nl {lines : List Str} (h1 : lines ≠ [])
    (h2 : ∀ l ∈ lines, '\n' ∉ l) :
    splitlines (joinNl lines ++ ['\n']) = lines := by
  unfold splitlines
  rw [splitOnNl_joinNl h1 h2, if_pos (List.getLast?_concat _), List.dropLast_concat]

lemma splitlines_save (existing : Option Str) (ide : IDE) :
    splitlines (save_preferred_ide existing ide) =
      (match existing with
        | none => []
        | some content =>
            (splitlines content).filter (fun l => !(prefKey.isPrefixOf l))) ++
        [prefKey ++ ide.value] := by
  have hnl : ∀ l ∈ (match existing with
      | none => ([] : List Str)
      | some content =>
          (splitlines content).filter (fun l => !(prefKey.isPrefixOf l))) ++
        [prefKey ++ ide.value], '\n' ∉ l := by
    intro l hl
    rcases List.mem_append.1 hl with h | h
    · cases existing with
      | none => simp at h
      | some content => exact splitlines_no_nl (List.mem_filter.1 h).1
    · have : l = prefKey ++ ide.value := by simpa using h
      subst this
      cases ide <;> decide
  unfold save_preferred_ide
  exact splitlines_append_nl (by simp) hnl

/-- Claim C6: writing the IDE preference twice leaves exactly one `PREFERRED_IDE=`
line, carrying the latest value (overwrite, not duplication), whatever the
prior file content was. -/
theorem save_preferred_ide_single_line (existing : Option Str) (x y : IDE) :
    (splitlines (save_preferred_ide (some (save_preferred_ide existing x)) y)).filter
        (fun l => prefKey.isPrefixOf l) = [prefKey ++ y.value] := by
  rw [splitlines_save]
  rw [List.filter_append]
  have h1 : ((splitlines (save_preferred_ide existing x)).filter
      (fun l => !(prefKey.isPrefixOf l))).filter
        (fun l => prefKey.isPrefixOf l) = [] := by
    rw [List.filter_eq_nil_iff]
    intro a ha
    have h := (List.mem_filter.1 ha).2
    intro hc
    simp [hc] at h
  rw [h1]
  have h2 : prefKey.isPrefixOf (prefKey ++ y.value) = true :=
    List.isPrefixOf_iff_prefix.2 (List.prefix_append _ _)
  simp [h2]

/-- Claim C7: the round-trip — saving IDE preference `X` over any prior content and
then reading it back yields `X`, for every supported IDE kind. -/
theorem save_get_preferred_ide_roundtrip (existing : Option Str) (ide : IDE) :
    get_preferred_ide (some (save_preferred_ide existing ide)) = some ide := by
  show scanPreferredIde (splitlines (save_preferred_ide existing ide)) = some ide
  rw [splitlines_save]
  have hskip : ∀ (L : List Str), (∀ l ∈ L, prefKey.isPrefixOf l = false) →
      scanPreferredIde (L ++ [prefKey ++ ide.value]) =
        scanPreferredIde [prefKey ++ ide.value] := by
    intro L hL
    induction L with
    | nil => rfl
    | cons a L' ihL =>
      rw [List.cons_append, scanPreferredIde,
        if_neg (by rw [hL a (List.mem_cons_self a L')]; simp)]
      exact ihL (fun l hl => hL l (List.mem_cons_of_mem a hl))
  rw [hskip]
  · cases ide <;> decide
  · intro l hl
    cases existing with
    | none => simp at hl
    | some content =>
      have h2 := (List.mem_filter.1 hl).2
      simpa using h2

/-! ### Worktree creation (the `create` command) -/

/-- The branch name used by `create`: `if not branch:` derives one from the
description (both `None` and the empty string are falsy in Python). -/
def derivedBranch (description : Str) (branch : Option Str) : Str :=
  match branch with
  | none => _generate_branch_name description
  | some b => if b = [] then _generate_branch_name description else b

/-- The worktree directory computed by `create`:
`project_root.parent / (repo_name + "-" + branch)`, with path joining
modelled as slash concatenation. -/
def worktreeTargetPath (description : Str) (branch : Option Str)
    (repo_name parent : Str) : Str :=
  parent ++ '/' :: (repo_name ++ '-' :: derivedBranch description branch)

/-- Outcome of the creation step of `create` between branch-name derivation
and the external VCS call: either the early return on an existing worktree
path (after reporting the conflict), or the invocation of
`git worktree add -b branch path`. -/
inductive CreateOutcome
  | abortedExists (path : Str)
  | invokedAdd (branch : Str) (path : Str)
deriving DecidableEq

/-- The existence check and dispatch of `create` (worktree.py lines 115-143):
reject when the computed path already exists, otherwise invoke the external
VCS tool.  `pathExists` models `Path.exists()`; nothing before this check in
`create` runs the worktree-add subcommand. -/
def create_worktree_step (description : Str) (branch : Option Str)
    (repo_name parent : Str) (pathExists : Str → Bool) : CreateOutcome :=
  if pathExists (worktreeTargetPath description branch repo_name parent) then
    .abortedExists (worktreeTargetPath description branch repo_name parent)
  else
    .invokedAdd (derivedBranch description branch)
      (worktreeTargetPath description branch repo_name parent)

/-- Claim C4: when the computed worktree directory `repoName-branch` already
exists, `create` reports the conflict and returns without ever invoking the
VCS worktree-add subcommand. -/
theorem create_aborts_on_existing_path (description : Str) (branch : Option Str)
    (repo_name parent : Str) (pathExists : Str → Bool)
    (h : pathExists (worktreeTargetPath description branch repo_name parent) = true) :
    create_worktree_step description branch repo_name parent pathExists =
        CreateOutcome.abortedExists
          (worktreeTargetPath description branch repo_name parent) ∧
      ∀ b p, create_worktree_step description branch repo_name parent pathExists ≠
        CreateOutcome.invokedAdd b p := by
  unfold create_worktree_step
  rw [if_pos h]
  exact ⟨rfl, fun b p => by simp⟩

/-- Witness for C4 at the spec scenario: in repository `repo` with directory
`/repo-fix-123` already existing, `create "fix 123"` with no explicit branch
aborts. -/
theorem create_aborts_on_existing_path_witness :
    create_worktree_step "fix 123".toList none "repo".toList []
        (fun p => p == "/repo-fix-123".toList) =
      CreateOutcome.abortedExists
        (worktreeTargetPath "fix 123".toList none "repo".toList []) :=
  (create_aborts_on_existing_path "fix 123".toList none "repo".toList []
    (fun p => p == "/repo-fix-123".toList) (by decide)).1
